import Mathlib

/-!
Shallow embedding of `src/lib/stitch-receipt-logs-into-calltracer.ts`.

The TypeScript module reconstructs which call of an EVM call tree emitted
which receipt log, from a flat depth-annotated opcode trace.  Pure data is
translated to Lean structures; the imperative frame-stack simulation
becomes explicit state passing (`DState`, `stepOne`); JavaScript runtime
errors (indexing an out-of-range array slot and then dereferencing
`undefined`) are modelled by `Option`, with `none` standing for a thrown
`TypeError` (or, for the pop loop with a negative depth, divergence).
In-place mutation of the call tree is modelled by rebuilding the tree with
the fields the code assigns.  JavaScript `Map`s keyed by slash-joined
paths become Lean functions `String → Nat` / association lists with the
same keys.
-/

/-- One opcode execution record (`StructLogStep` in the source).
`depth` is a JavaScript number compared with `>` against other depths, so
it is embedded as `Int`. -/
structure StructLogStep where
  op : String
  depth : Int
  pc : Nat
deriving DecidableEq, Repr

/-- One entry of the transaction receipt's log list (`ReceiptLog`). -/
structure ReceiptLog where
  address : String
  topics : List String
  data : String
deriving DecidableEq, Repr

/-- Transient simulation state for one call-stack level (`Frame`). -/
structure Frame where
  path : List Nat
  nextChild : Nat
  logsIdx : List Nat
  reverted : Bool
deriving DecidableEq, Repr

/-- A provisional event record, as accumulated in the `events` array of
`deriveEventPathsRevertAware` (the anonymous record type with an optional
`dropped` flag; absence of the flag is `dropped = false`). -/
structure ProvEvent where
  op : String
  pc : Nat
  depth : Int
  callPath : List Nat
  dropped : Bool
deriving DecidableEq, Repr

/-- A finalized event record (`EventPath` in the source). -/
structure EventPath where
  op : String
  pc : Nat
  depth : Int
  callPath : List Nat
  eventIdxInCall : Nat
deriving DecidableEq, Repr

/-- The mutable locals of `deriveEventPathsRevertAware`, threaded through
the step loop. `frames` lists the stack bottom-first, so list index `i`
is array index `i` and the last element is the top of the stack. -/
structure DState where
  frames : List Frame
  pending : Option (Nat × Nat)
  events : List ProvEvent
  prevDepth : Int
deriving DecidableEq, Repr

/-- The `ENTER` set of CALL-family and CREATE-family opcodes. -/
def ENTER : List String :=
  ["CALL", "STATICCALL", "DELEGATECALL", "CALLCODE", "CREATE", "CREATE2"]

/-- JavaScript `Array.prototype.join(sep)` for string elements. -/
def joinWith (sep : String) : List String → String
  | [] => ""
  | [x] => x
  | x :: xs => x ++ sep ++ joinWith sep xs

/-- `path.join("/")` on a number array: each index is rendered in decimal
(`toString` on a Lean `Nat` is the same decimal rendering JavaScript uses
for these non-negative integers) and the pieces are joined with `/`. -/
def joinPath (path : List Nat) : String :=
  joinWith "/" (path.map toString)

/-- Numeric value of a decimal digit character (used only to prove that the
slash-joined path keys of the source's `Map`s are collision-free). -/
def charVal (c : Char) : Nat := c.toNat - 48

/-- Value of a list of decimal digit characters, most significant first. -/
def digitsVal (l : List Char) : Nat := l.foldl (fun acc c => acc * 10 + charVal c) 0

/-- Char-level slash-joining, mirror of `joinWith "/"` on `String.data`. -/
def joinSegs : List (List Char) → List Char
  | [] => []
  | [a] => a
  | a :: rest => a ++ '/' :: joinSegs rest

/-- JavaScript `String.prototype.startsWith`, characterwise (equivalent to
`String.startsWith`, but defined by structural recursion so that concrete
runs reduce in the kernel). -/
def strStartsWith (s pre : String) : Bool := pre.data.isPrefixOf s.data

/-- JavaScript `String.prototype.toLowerCase`, characterwise (the strings
compared here are ASCII hex addresses). -/
def jsToLower (s : String) : String := ⟨s.data.map Char.toLower⟩

/-- The `for (const idx of f.logsIdx) events[idx].dropped = true` loop.
Every index in `logsIdx` is in range by construction (it was `events.length`
at the time it was recorded), so the out-of-range case cannot occur; it is
embedded as a no-op. -/
def markDropped : List ProvEvent → List Nat → List ProvEvent
  | evs, [] => evs
  | evs, idx :: rest =>
    let evs' :=
      match evs[idx]? with
      | some e => evs.set idx { e with dropped := true }
      | none => evs
    markDropped evs' rest

/-- The `while (frames.length - 1 > d - 1)` pop loop, with explicit fuel so
that the definition is structurally recursive (and hence computes by kernel
reduction).  `popLoop` below always supplies `fuel = frames.length`, which
is enough for every reachable configuration: each iteration pops one frame.
The fuel-exhausted case and the empty-stack case both return `none`; in
JavaScript the latter is an infinite loop (only reachable when `d < 0`). -/
def popLoopF : Nat → List Frame → List ProvEvent → Int → Option (List Frame × List ProvEvent)
  | fuel, frames, events, d =>
    if (frames.length : Int) - 1 > d - 1 then
      match frames.getLast? with
      | none => none
      | some f =>
        match fuel with
        | 0 => none
        | fuel' + 1 =>
          popLoopF fuel' frames.dropLast
            (if f.reverted then markDropped events f.logsIdx else events) d
    else some (frames, events)

/-- The pop loop of `deriveEventPathsRevertAware` (lines 117-123). -/
def popLoop (frames : List Frame) (events : List ProvEvent) (d : Int) :
    Option (List Frame × List ProvEvent) :=
  popLoopF frames.length frames events d

/-- Resolution of a pending reservation from the previous step
(lines 100-114).  `none` models the `TypeError` raised when
`frames[parent]` is out of range. -/
def resolvePending (st : DState) (s : StructLogStep) : Option (List Frame) :=
  match st.pending with
  | none => some st.frames
  | some (parent, idx) =>
    if s.depth > st.prevDepth then
      match st.frames[parent]? with
      | none => none
      | some pf =>
        some (st.frames ++
          [{ path := pf.path ++ [idx], nextChild := 0, logsIdx := [], reverted := false }])
    else some st.frames

/-- The CALL/CREATE branch (lines 125-130): reserve a child slot on the top
frame and increment its child counter.  Returns the updated stack and the
recorded pending reservation `(parentIdx, reservedIdx)`. -/
def applyEnter (frames : List Frame) : Option (List Frame × Nat × Nat) :=
  match frames.getLast? with
  | none => none
  | some f =>
    let parentIdx := frames.length - 1
    let idx := f.nextChild
    some (frames.set parentIdx { f with nextChild := f.nextChild + 1 }, parentIdx, idx)

/-- The LOG branch (lines 132-142): record the event index in the top
frame's log list and append a provisional event carrying a copy of the top
frame's path. -/
def applyLog (frames : List Frame) (events : List ProvEvent) (s : StructLogStep) :
    Option (List Frame × List ProvEvent) :=
  match frames.getLast? with
  | none => none
  | some cur =>
    let evIdx := events.length
    some (frames.set (frames.length - 1) { cur with logsIdx := cur.logsIdx ++ [evIdx] },
      events ++ [{ op := s.op, pc := s.pc, depth := s.depth, callPath := cur.path,
                   dropped := false }])

/-- The REVERT branch (lines 144-147): mark the current top frame
reverted. -/
def applyRevert (frames : List Frame) : Option (List Frame) :=
  match frames.getLast? with
  | none => none
  | some cur => some (frames.set (frames.length - 1) { cur with reverted := true })

/-- The state of the stack and event list after the two actions that happen
before the current step's own opcode is interpreted: resolving the pending
reservation and popping frames down to the step's depth. -/
def framesAfterUnwind (st : DState) (s : StructLogStep) :
    Option (List Frame × List ProvEvent) :=
  match resolvePending st s with
  | none => none
  | some fr => popLoop fr st.events s.depth

/-- One iteration of the step loop of `deriveEventPathsRevertAware`: resolve
the pending reservation, pop to the step depth, then interpret the step
opcode (reserve on CALL/CREATE, capture on LOG, mark on REVERT), failing
(`none`) wherever the JavaScript would throw. -/
def stepOne (st : DState) (s : StructLogStep) : Option DState :=
  match framesAfterUnwind st s with
  | none => none
  | some (fr0, evs0) =>
    match (if ENTER.contains s.op then (applyEnter fr0).map (fun r => (r.1, some r.2))
           else some (fr0, (none : Option (Nat × Nat)))) with
    | none => none
    | some (fr1, pending1) =>
      match (if strStartsWith s.op "LOG" then applyLog fr1 evs0 s else some (fr1, evs0)) with
      | none => none
      | some (fr2, evs2) =>
        match (if s.op = "REVERT" then applyRevert fr2 else some fr2) with
        | none => none
        | some fr3 =>
          some { frames := fr3, pending := pending1, events := evs2, prevDepth := s.depth }

/-- The initial locals: one virtual root frame at the empty path, no
pending reservation, no events, `prevDepth` from the first step (1 when
the trace is empty). -/
def initState (steps : List StructLogStep) : DState :=
  { frames := [{ path := [], nextChild := 0, logsIdx := [], reverted := false }],
    pending := none,
    events := [],
    prevDepth := match steps.head? with | some s => s.depth | none => 1 }

/-- Run the step loop over a list of steps. -/
def runD (init : DState) (steps : List StructLogStep) : Option DState :=
  steps.foldlM stepOne init

/-- The final pass of `deriveEventPathsRevertAware` (lines 155-170): skip
dropped records and assign per-path ordinals.  The `Map<string, number>`
keyed by `callPath.join("/")` is modelled as a function `String → Nat`
(`counters.get(key) ?? 0` is the application, `counters.set` the
pointwise update). -/
def finalizeEvents : List ProvEvent → (String → Nat) → List EventPath
  | [], _ => []
  | e :: rest, counters =>
    if e.dropped then finalizeEvents rest counters
    else
      let key := joinPath e.callPath
      let n := counters key
      { op := e.op, pc := e.pc, depth := e.depth, callPath := e.callPath,
        eventIdxInCall := n }
        :: finalizeEvents rest (fun k => if k = key then n + 1 else counters k)

/-- `deriveEventPathsRevertAware` (lines 58-172).  `none` models a thrown
`TypeError` (or divergence) during the step loop. -/
def deriveEventPathsRevertAware (steps : List StructLogStep) : Option (List EventPath) :=
  (runD (initState steps) steps).map (fun st => finalizeEvents st.events (fun _ => 0))

/-- Number of LOG-family steps in a trace. -/
def countLOG (steps : List StructLogStep) : Nat :=
  (steps.filter (fun s => strStartsWith s.op "LOG")).length

/-- Projection of a finalized record to its fields shared with the
provisional record. -/
def stripE (e : EventPath) : String × Nat × Int × List Nat :=
  (e.op, e.pc, e.depth, e.callPath)

/-- Projection of a provisional record to the fields copied into the
finalized record. -/
def stripP (e : ProvEvent) : String × Nat × Int × List Nat :=
  (e.op, e.pc, e.depth, e.callPath)

/-! ### The call tree, stitcher and enricher -/

/-- Decoded form attached to a log by the enricher: either a
`{name, params}` object produced by a caller-supplied parser, or the raw
`{topics, data}` fallback.  The parser's `any` result is modelled as a
`String`. -/
inductive Parsed where
  | decoded (name : String) (params : String)
  | raw (topics : List String) (data : String)
deriving DecidableEq, Repr

/-- A receipt log as attached to a call node, together with the `parsed`
field the enricher adds via object spread. -/
structure AttachedLog where
  log : ReceiptLog
  parsed : Option Parsed
deriving DecidableEq, Repr

/-- A node of the call-tracer tree (`CallNode`).  The source fields `from`
and `to` are named `fromAddr` and `toAddr` (`from` is a Lean keyword);
`path` is the `_path` debugging field, `logs` the attached-log list, both
`Option` because they are absent until this module assigns them. -/
inductive CallNode where
  | mk (type fromAddr toAddr input method : Option String)
       (logs : Option (List AttachedLog))
       (path : Option (List Nat))
       (calls : List CallNode)
deriving Repr

def CallNode.type : CallNode → Option String
  | .mk t _ _ _ _ _ _ _ => t

def CallNode.fromAddr : CallNode → Option String
  | .mk _ f _ _ _ _ _ _ => f

def CallNode.toAddr : CallNode → Option String
  | .mk _ _ x _ _ _ _ _ => x

def CallNode.input : CallNode → Option String
  | .mk _ _ _ i _ _ _ _ => i

def CallNode.method : CallNode → Option String
  | .mk _ _ _ _ m _ _ _ => m

def CallNode.logs : CallNode → Option (List AttachedLog)
  | .mk _ _ _ _ _ l _ _ => l

def CallNode.path : CallNode → Option (List Nat)
  | .mk _ _ _ _ _ _ p _ => p

def CallNode.calls : CallNode → List CallNode
  | .mk _ _ _ _ _ _ _ c => c

/-- The `CallTracerRoot` union: a single root node or an array of
top-level calls. -/
inductive CallRoot where
  | single (node : CallNode)
  | forest (nodes : List CallNode)
deriving Repr

mutual

/-- The `visit` closure of `annotateCallPaths`: records the node under its
slash-joined path key, then visits the children with extended paths. -/
def annotateVisit : CallNode → List Nat → List (String × CallNode)
  | .mk t f toA inp m lg p calls, pfx =>
    (joinPath pfx, .mk t f toA inp m lg p calls) :: annotateKids calls pfx 0

/-- Visits a child list, the i-th child under `pfx ++ [i]`. -/
def annotateKids : List CallNode → List Nat → Nat → List (String × CallNode)
  | [], _, _ => []
  | c :: cs, pfx, i => annotateVisit c (pfx ++ [i]) ++ annotateKids cs pfx (i + 1)

end

/-- `annotateCallPaths` (lines 175-196): a single root is registered at the
empty path, an array of roots registers the i-th top-level node at `[i]`.
The `Map<string, CallNode>` is modelled as the association list of entries
in visit order (all keys are distinct, so lookup agrees with the `Map`). -/
def annotateCallPaths : CallRoot → List (String × CallNode)
  | .single n => annotateVisit n []
  | .forest ns => annotateKids ns [] 0

/-- `expectedLogAddressForNode` (lines 199-205). -/
def expectedLogAddressForNode (n : CallNode) : Option String :=
  if n.type = some "DELEGATECALL" ∨ n.type = some "CALLCODE" then
    Option.map jsToLower n.fromAddr
  else Option.map jsToLower n.toAddr

/-- The count-mismatch warning text (line 231). -/
def countMismatchMsg (e l : Nat) : String :=
  s!"events from structLogs ({e}) != receipt logs ({l}). Will attach sequentially."

/-- The missing-node warning text (line 247). -/
def noNodeMsg (key : String) (li : Nat) : String :=
  s!"no callTracer node for path [{key}] at receipt log #{li}"

/-- The address-mismatch warning text (line 260); `la` is the already
lowercased log address. -/
def addrMismatchMsg (key ea la : String) (li : Nat) : String :=
  s!"address mismatch at path [{key}]: expected {ea}, got {la} (log #{li})"

/-- The leftover-log warning text (line 268). -/
def leftoverMsg (li : Nat) : String :=
  s!"leftover receipt log #{li} not mapped"

/-- The attach loop of `stitchLogsIntoCallTrace` (lines 241-264).  The
source walks `events` and `logs` with two counters `i` and `li` that are
incremented together from 0, so the iterations are exactly the element
pairs of `events.zip logs`; `li` is carried for the warning texts.
Returns the `(key, log)` attachments made (in order) and the warnings
emitted (in order). -/
def attachAll (pm : List (String × CallNode)) :
    List (EventPath × ReceiptLog) → Nat → List (String × ReceiptLog) × List String
  | [], _ => ([], [])
  | (e, lg) :: rest, li =>
    let key := joinPath e.callPath
    match pm.find? (fun kv => kv.1 == key) with
    | none =>
      let r := attachAll pm rest (li + 1)
      (r.1, noNodeMsg key li :: r.2)
    | some kn =>
      let ws :=
        match expectedLogAddressForNode kn.2 with
        | some ea =>
          if ea ≠ "" ∧ lg.address ≠ "" ∧ ea ≠ jsToLower lg.address
          then [addrMismatchMsg key ea (jsToLower lg.address) li] else []
        | none => []
      let r := attachAll pm rest (li + 1)
      ((key, lg) :: r.1, ws ++ r.2)

mutual

/-- Rebuilds a node with the fields the stitch mutates: `_path` set to the
node's structural path, `logs` set to the list the attach loop pushed onto
this node (initialized to `[]` for every node before attachment). -/
def rebuildNode (att : String → List ReceiptLog) : CallNode → List Nat → CallNode
  | .mk t f toA inp m _ _ calls, pfx =>
    .mk t f toA inp m
      (some ((att (joinPath pfx)).map (fun lg => { log := lg, parsed := none })))
      (some pfx)
      (rebuildKids att calls pfx 0)

def rebuildKids (att : String → List ReceiptLog) :
    List CallNode → List Nat → Nat → List CallNode
  | [], _, _ => []
  | c :: cs, pfx, i => rebuildNode att c (pfx ++ [i]) :: rebuildKids att cs pfx (i + 1)

end

/-- Rebuild the whole root with the attached logs. -/
def rebuildRoot (att : String → List ReceiptLog) : CallRoot → CallRoot
  | .single n => .single (rebuildNode att n [])
  | .forest ns => .forest (rebuildKids att ns [] 0)

/-- The body of `stitchLogsIntoCallTrace` (lines 213-269) up to but not
including the final throw-or-return decision: derive the events, annotate
the tree, emit the count-mismatch warning if any, attach pairwise, emit
the leftover warnings, and return the mutated tree with the warning list.
In-place mutation through the `Map`'s aliased node references is modelled
by rebuilding the tree: each node's final `logs` array is exactly the
sequence of logs pushed under its (unique) path key. -/
def stitchCore (root : CallRoot) (structLogs : List StructLogStep)
    (receipt : List ReceiptLog) : Option (CallRoot × List String) :=
  match deriveEventPathsRevertAware structLogs with
  | none => none
  | some events =>
    let pathMap := annotateCallPaths root
    let cm :=
      if events.length ≠ receipt.length
      then [countMismatchMsg events.length receipt.length] else []
    let r := attachAll pathMap (events.zip receipt) 0
    let m := min events.length receipt.length
    let leftWs := (List.range' m (receipt.length - m)).map leftoverMsg
    let att := fun key => ((r.1.filter (fun kv => kv.1 == key)).map (fun kv => kv.2))
    some (rebuildRoot att root, cm ++ r.2 ++ leftWs)

/-- The error-message header of the aggregated-warnings throw (line 273). -/
def warningsHeader : String :=
  "Warnings during stitchLogsIntoCallTrace:\n"

/-- `stitchLogsIntoCallTrace` (lines 213-278): the `throw` of the
aggregated warnings is modelled as `Except.error`, the normal return as
`Except.ok`. -/
def stitchLogsIntoCallTrace (root : CallRoot) (structLogs : List StructLogStep)
    (receipt : List ReceiptLog) (suppressWarnings : Bool) :
    Option (Except String (CallRoot × List String)) :=
  match stitchCore root structLogs receipt with
  | none => none
  | some (root', ws) =>
    some (if 0 < ws.length ∧ suppressWarnings = false
          then Except.error (warningsHeader ++ joinWith "\n" ws)
          else Except.ok (root', ws))

/-- `getMethodName` (lines 293-300): JavaScript `!input` is true exactly
for the empty string here; `input.slice(0, 10)` is the first 10
characters; `selectors[selector] != null` is lookup in a table modelled as
`String → Option String` (absent and null-valued entries are `none`). -/
def getMethodName (selectors : String → Option String) (input : String) : String :=
  if input = "" ∨ input.length < 10 then "unknown"
  else
    let selector := input.take 10
    match selectors selector with
    | some name => name
    | none => selector

/-- `parseEvent` (lines 302-317): look the log's first topic up in the
caller-supplied table; on success return the decoded `{name, params}`
(the parser's `any` result is modelled as `String`), otherwise the raw
`{topics, data}` shape.  An empty topic list gives an undefined key, which
misses the table. -/
def parseEvent (tmap : String → Option (String × (ReceiptLog → String)))
    (lg : ReceiptLog) : Parsed :=
  match lg.topics.head? with
  | some code =>
    match tmap code with
    | some pr => .decoded pr.1 (pr.2 lg)
    | none => .raw lg.topics lg.data
  | none => .raw lg.topics lg.data

mutual

/-- `enrichCall` (lines 318-335).  The method assignment is the source's
`call.input ? getMethodName(call.input) : call.input?.substring(0, 10)`:
a present non-empty input goes through `getMethodName`, an empty string
(falsy) becomes its own 10-character prefix (the empty string), and a
missing input leaves `method` undefined. -/
def enrichCall (sel : String → Option String)
    (tmap : String → Option (String × (ReceiptLog → String))) : CallNode → CallNode
  | .mk t f toA inp _ lgs p calls =>
    let method :=
      match inp with
      | none => none
      | some s => if s ≠ "" then some (getMethodName sel s) else some (s.take 10)
    let lgs' :=
      match lgs with
      | none => none
      | some ls => some (ls.map (fun al =>
          { log := al.log, parsed := some (parseEvent tmap al.log) }))
    .mk t f toA inp method lgs' p (enrichKids sel tmap calls)

def enrichKids (sel : String → Option String)
    (tmap : String → Option (String × (ReceiptLog → String))) :
    List CallNode → List CallNode
  | [] => []
  | c :: cs => enrichCall sel tmap c :: enrichKids sel tmap cs

end

/-- `enrichTraceWithCallAndEventDetails` (lines 287-341) on either root
shape. -/
def enrichTraceWithCallAndEventDetails (sel : String → Option String)
    (tmap : String → Option (String × (ReceiptLog → String))) : CallRoot → CallRoot
  | .single n => .single (enrichCall sel tmap n)
  | .forest ns => .forest (enrichKids sel tmap ns)

/-! ## Helper lemmas about the step loop -/

theorem runD_nil (init : DState) : runD init [] = some init := rfl

theorem runD_append (init : DState) (xs ys : List StructLogStep) :
    runD init (xs ++ ys) = (runD init xs).bind (fun st => runD st ys) := by
  simp [runD, List.foldlM_append]

theorem runD_one (st : DState) (s : StructLogStep) : runD st [s] = stepOne st s := by
  simp [runD, List.foldlM]

theorem runD_take_succ (init : DState) (steps : List StructLogStep) (n : Nat)
    (s : StructLogStep) (h : steps[n]? = some s) :
    runD init (steps.take (n + 1)) =
      (runD init (steps.take n)).bind (fun st => stepOne st s) := by
  rw [List.take_succ, h]
  simp [runD_append, runD_one]

theorem runD_take_isSome (init : DState) (steps : List StructLogStep) (n : Nat)
    (h : (runD init steps).isSome) : (runD init (steps.take n)).isSome := by
  rw [← List.take_append_drop n steps, runD_append] at h
  rcases hr : runD init (steps.take n) with _ | st <;> simp [hr] at h ⊢

/-! ## Helper lemmas about the pop loop -/

theorem popLoop_stop (frames : List Frame) (evs : List ProvEvent) (d : Int)
    (h : ¬((frames.length : Int) - 1 > d - 1)) :
    popLoop frames evs d = some (frames, evs) := by
  rw [popLoop, popLoopF]
  simp [h]

theorem popLoop_pop (frames : List Frame) (evs : List ProvEvent) (d : Int) (f : Frame)
    (h : (frames.length : Int) - 1 > d - 1) (hl : frames.getLast? = some f) :
    popLoop frames evs d =
      popLoop frames.dropLast (if f.reverted then markDropped evs f.logsIdx else evs) d := by
  have hne : frames ≠ [] := by intro hn; rw [hn] at hl; simp at hl
  have hpos : 0 < frames.length := List.length_pos.mpr hne
  obtain ⟨m, hm⟩ : ∃ m, frames.length = m + 1 := ⟨frames.length - 1, by omega⟩
  have hdl : frames.dropLast.length = m := by rw [List.length_dropLast, hm]; omega
  rw [popLoop, popLoop, hm, hdl]
  conv_lhs => rw [popLoopF]
  simp [h, hl]

theorem popLoop_crash (frames : List Frame) (evs : List ProvEvent) (d : Int)
    (h : (frames.length : Int) - 1 > d - 1) (hl : frames.getLast? = none) :
    popLoop frames evs d = none := by
  rw [popLoop, popLoopF]
  simp [h, hl]

/-! ## Helper lemmas about `markDropped` -/

theorem markDropped_getElem? (idxs : List Nat) : ∀ (evs : List ProvEvent) (i : Nat),
    (markDropped evs idxs)[i]? =
      (evs[i]?).map (fun e => if i ∈ idxs then { e with dropped := true } else e) := by
  induction idxs with
  | nil =>
    intro evs i
    simp only [markDropped]
    cases evs[i]? <;> simp
  | cons idx rest ih =>
    intro evs i
    rcases h : evs[idx]? with _ | e
    · simp only [markDropped, h]
      rw [ih]
      by_cases hii : i = idx
      · subst hii; rw [h]; simp
      · cases evs[i]? <;> simp [List.mem_cons, hii]
    · simp only [markDropped, h]
      rw [ih]
      by_cases hii : i = idx
      · subst hii
        have hlt : i < evs.length := by
          rcases Nat.lt_or_ge i evs.length with h' | h'
          · exact h'
          · rw [List.getElem?_eq_none h'] at h; cases h
        rw [List.getElem?_set_self hlt, h]
        by_cases hm : i ∈ rest <;> simp [hm]
      · rw [List.getElem?_set_ne (by omega)]
        cases evs[i]? <;> simp [List.mem_cons, hii]

theorem markDropped_length (idxs : List Nat) : ∀ (evs : List ProvEvent),
    (markDropped evs idxs).length = evs.length := by
  induction idxs with
  | nil => intro evs; simp [markDropped]
  | cons idx rest ih =>
    intro evs
    rw [markDropped]
    rcases h : evs[idx]? with _ | e <;> simp [ih]

/-! ## Helper lemmas about the finalize pass -/

theorem finalizeEvents_strip (evs : List ProvEvent) : ∀ c : String → Nat,
    (finalizeEvents evs c).map stripE = (evs.filter (fun e => !e.dropped)).map stripP := by
  induction evs with
  | nil => intro c; simp [finalizeEvents]
  | cons e rest ih =>
    intro c
    rw [finalizeEvents]
    by_cases hd : e.dropped = true
    · simp [hd, ih]
    · simp only [hd, if_neg, Bool.false_eq_true, not_false_eq_true, List.map_cons]
      rw [List.filter_cons_of_pos (by simp [hd])]
      simp [ih, stripE, stripP]

theorem finalizeEvents_key (evs : List ProvEvent) : ∀ (c : String → Nat) (k : String),
    ((finalizeEvents evs c).filter (fun r => joinPath r.callPath == k)).map
        (fun r => r.eventIdxInCall) =
      List.range' (c k)
        ((evs.filter (fun e => !e.dropped && (joinPath e.callPath == k))).length) := by
  induction evs with
  | nil => intro c k; simp [finalizeEvents]
  | cons e rest ih =>
    intro c k
    rw [finalizeEvents]
    by_cases hd : e.dropped = true
    · rw [if_pos hd, List.filter_cons_of_neg (by simp [hd])]
      exact ih c k
    · rw [if_neg hd]
      by_cases hk : joinPath e.callPath = k
      · rw [List.filter_cons_of_pos (by simp [hk]),
            List.filter_cons_of_pos (by simp [hd, hk])]
        simp only [List.map_cons, List.length_cons]
        rw [ih, List.range'_succ]
        congr 1
        · exact congrArg c hk
        · congr 1
          simp [hk]
      · rw [List.filter_cons_of_neg (by simp [hk]),
            List.filter_cons_of_neg (by simp [hd, hk])]
        rw [ih]
        congr 1
        exact if_neg (Ne.symm hk)

/-! ## Decimal digits and injectivity of the slash-joined path keys -/

theorem digitChar_isDigit {m : Nat} (h : m < 10) : (Nat.digitChar m).isDigit = true := by
  interval_cases m <;> decide

theorem charVal_digitChar {m : Nat} (h : m < 10) : charVal (Nat.digitChar m) = m := by
  interval_cases m <;> decide

theorem isDigit_ne_slash {c : Char} (h : c.isDigit = true) : c ≠ '/' := by
  intro hc
  rw [hc] at h
  exact absurd h (by decide)

theorem toDigitsCore_mem (fuel : Nat) : ∀ (n : Nat) (ds : List Char) (c : Char),
    c ∈ Nat.toDigitsCore 10 fuel n ds → c ∈ ds ∨ c.isDigit = true := by
  induction fuel with
  | zero => intro n ds c h; exact Or.inl h
  | succ fuel ih =>
    intro n ds c h
    rw [Nat.toDigitsCore] at h
    by_cases hz : n / 10 = 0
    · rw [if_pos hz] at h
      rcases List.mem_cons.mp h with h' | h'
      · exact Or.inr (h' ▸ digitChar_isDigit (Nat.mod_lt n (by omega)))
      · exact Or.inl h'
    · rw [if_neg hz] at h
      rcases ih (n / 10) _ c h with h' | h'
      · rcases List.mem_cons.mp h' with h'' | h''
        · exact Or.inr (h'' ▸ digitChar_isDigit (Nat.mod_lt n (by omega)))
        · exact Or.inl h''
      · exact Or.inr h'

theorem toDigitsCore_length_le (fuel : Nat) : ∀ (n : Nat) (ds : List Char),
    ds.length ≤ (Nat.toDigitsCore 10 fuel n ds).length := by
  induction fuel with
  | zero => intro n ds; rw [Nat.toDigitsCore]
  | succ fuel ih =>
    intro n ds
    rw [Nat.toDigitsCore]
    by_cases hz : n / 10 = 0
    · rw [if_pos hz]; simp
    · rw [if_neg hz]
      calc ds.length ≤ (Nat.digitChar (n % 10) :: ds).length := by simp
        _ ≤ _ := ih (n / 10) _

theorem toDigitsCore_ne_nil (fuel : Nat) (n : Nat) (ds : List Char) :
    Nat.toDigitsCore 10 (fuel + 1) n ds ≠ [] := by
  intro h
  have h1 : (Nat.digitChar (n % 10) :: ds).length ≤
      (Nat.toDigitsCore 10 (fuel + 1) n ds).length := by
    rw [Nat.toDigitsCore]
    by_cases hz : n / 10 = 0
    · rw [if_pos hz]
    · rw [if_neg hz]; exact toDigitsCore_length_le fuel (n / 10) _
  rw [h] at h1
  simp at h1

theorem toDigitsCore_acc (fuel : Nat) : ∀ (n : Nat) (ds : List Char),
    Nat.toDigitsCore 10 fuel n ds = Nat.toDigitsCore 10 fuel n [] ++ ds := by
  induction fuel with
  | zero => intro n ds; rw [Nat.toDigitsCore, Nat.toDigitsCore]; rfl
  | succ fuel ih =>
    intro n ds
    rw [Nat.toDigitsCore]
    conv_rhs => rw [Nat.toDigitsCore]
    by_cases hz : n / 10 = 0
    · rw [if_pos hz, if_pos hz]; rfl
    · rw [if_neg hz, if_neg hz, ih (n / 10) [Nat.digitChar (n % 10)],
          ih (n / 10) (Nat.digitChar (n % 10) :: ds)]
      simp

theorem digitsVal_concat (l : List Char) (c : Char) :
    digitsVal (l ++ [c]) = digitsVal l * 10 + charVal c := by
  rw [digitsVal, digitsVal, List.foldl_append]
  rfl

theorem toDigitsCore_val (fuel : Nat) : ∀ n : Nat, n < 10 ^ fuel →
    digitsVal (Nat.toDigitsCore 10 fuel n []) = n := by
  induction fuel with
  | zero =>
    intro n hn
    have : n = 0 := by simpa using hn
    subst this
    rw [Nat.toDigitsCore]
    rfl
  | succ fuel ih =>
    intro n hn
    rw [Nat.toDigitsCore]
    by_cases hz : n / 10 = 0
    · rw [if_pos hz]
      have hv : digitsVal [(n % 10).digitChar] = charVal ((n % 10).digitChar) := by
        simp [digitsVal, List.foldl]
      rw [hv, charVal_digitChar (Nat.mod_lt n (by omega))]
      omega
    · rw [if_neg hz, toDigitsCore_acc, digitsVal_concat]
      have hb : n / 10 < 10 ^ fuel :=
        Nat.div_lt_of_lt_mul (by rw [Nat.mul_comm, ← Nat.pow_succ]; exact hn)
      rw [ih (n / 10) hb, charVal_digitChar (Nat.mod_lt n (by omega))]
      omega

theorem natToString_data (n : Nat) : (toString n).data = Nat.toDigits 10 n := rfl

theorem natToString_ne_nil (n : Nat) : (toString n).data ≠ [] := by
  rw [natToString_data, Nat.toDigits]
  exact toDigitsCore_ne_nil n n []

theorem natToString_digits (n : Nat) : ∀ c ∈ (toString n).data, c.isDigit = true := by
  intro c hc
  rw [natToString_data, Nat.toDigits] at hc
  rcases toDigitsCore_mem (n + 1) n [] c hc with h | h
  · cases h
  · exact h

theorem natToString_inj {n m : Nat} (h : (toString n).data = (toString m).data) : n = m := by
  rw [natToString_data, natToString_data, Nat.toDigits, Nat.toDigits] at h
  have hn := toDigitsCore_val (n + 1) n
    (Nat.lt_of_lt_of_le (Nat.lt_pow_self (by norm_num) n)
      (Nat.pow_le_pow_right (by norm_num) (Nat.le_succ n)))
  have hm := toDigitsCore_val (m + 1) m
    (Nat.lt_of_lt_of_le (Nat.lt_pow_self (by norm_num) m)
      (Nat.pow_le_pow_right (by norm_num) (Nat.le_succ m)))
  rw [← hn, ← hm, h]

theorem seg_split : ∀ (a b u v : List Char), (∀ c ∈ a, c ≠ '/') → (∀ c ∈ b, c ≠ '/') →
    a ++ '/' :: u = b ++ '/' :: v → a = b ∧ u = v := by
  intro a
  induction a with
  | nil =>
    intro b u v _ hb h
    cases b with
    | nil => exact ⟨rfl, by simpa using h⟩
    | cons c b' =>
      simp only [List.nil_append, List.cons_append, List.cons.injEq] at h
      exact absurd h.1.symm (hb c (List.mem_cons_self c b'))
  | cons c a' ih =>
    intro b u v ha hb h
    cases b with
    | nil =>
      simp only [List.cons_append, List.nil_append, List.cons.injEq] at h
      exact absurd h.1 (ha c (List.mem_cons_self c a'))
    | cons c2 b' =>
      simp only [List.cons_append, List.cons.injEq] at h
      obtain ⟨h1, h2⟩ := h
      obtain ⟨ha', hu⟩ := ih b' u v (fun x hx => ha x (List.mem_cons_of_mem c hx))
        (fun x hx => hb x (List.mem_cons_of_mem c2 hx)) h2
      exact ⟨by rw [h1, ha'], hu⟩

theorem joinSegs_inj : ∀ (ss ts : List (List Char)),
    (∀ s ∈ ss, s ≠ [] ∧ ∀ c ∈ s, c ≠ '/') →
    (∀ s ∈ ts, s ≠ [] ∧ ∀ c ∈ s, c ≠ '/') →
    joinSegs ss = joinSegs ts → ss = ts := by
  intro ss
  induction ss with
  | nil =>
    intro ts hss hts h
    cases ts with
    | nil => rfl
    | cons t ts' =>
      cases ts' with
      | nil =>
        simp only [joinSegs] at h
        exact absurd h.symm (hts t (by simp)).1
      | cons t2 ts'' =>
        simp only [joinSegs] at h
        have := congrArg List.length h
        simp at this
        omega
  | cons a ss' ih =>
    intro ts hss hts h
    cases ts with
    | nil =>
      cases ss' with
      | nil =>
        simp only [joinSegs] at h
        exact absurd h (hss a (by simp)).1
      | cons a2 ss'' =>
        simp only [joinSegs] at h
        have := congrArg List.length h
        simp at this
    | cons t ts' =>
      cases ss' with
      | nil =>
        cases ts' with
        | nil =>
          simp only [joinSegs] at h
          rw [h]
        | cons t2 ts'' =>
          simp only [joinSegs] at h
          have hm : '/' ∈ a := by
            rw [h]
            exact List.mem_append_right _ (List.mem_cons_self _ _)
          exact absurd rfl ((hss a (by simp)).2 '/' hm)
      | cons a2 ss'' =>
        cases ts' with
        | nil =>
          simp only [joinSegs] at h
          have hm : '/' ∈ t := by
            rw [← h]
            exact List.mem_append_right _ (List.mem_cons_self _ _)
          exact absurd rfl ((hts t (by simp)).2 '/' hm)
        | cons t2 ts'' =>
          simp only [joinSegs] at h
          obtain ⟨h1, h2⟩ := seg_split a t _ _ (hss a (by simp)).2 (hts t (by simp)).2 h
          have hrest := ih (t2 :: ts'') (fun s hs => hss s (List.mem_cons_of_mem a hs))
            (fun s hs => hts s (List.mem_cons_of_mem t hs)) h2
          rw [h1, hrest]

theorem joinWith_slash_data (ss : List String) :
    (joinWith "/" ss).data = joinSegs (ss.map String.data) := by
  induction ss with
  | nil => rfl
  | cons s ss' ih =>
    cases ss' with
    | nil => rfl
    | cons s2 ss'' =>
      simp only [joinWith, joinSegs, List.map_cons, String.data_append]
      rw [← List.map_cons, ← ih]
      simp [joinWith]

theorem map_natToString_data_inj : ∀ p q : List Nat,
    p.map (fun n => (toString n).data) = q.map (fun n => (toString n).data) → p = q := by
  intro p
  induction p with
  | nil =>
    intro q h
    cases q with
    | nil => rfl
    | cons m q' => simp at h
  | cons n p' ih =>
    intro q h
    cases q with
    | nil => simp at h
    | cons m q' =>
      simp only [List.map_cons, List.cons.injEq] at h
      rw [natToString_inj h.1, ih q' h.2]

theorem joinPath_inj {p q : List Nat} (h : joinPath p = joinPath q) : p = q := by
  have hd : (joinPath p).data = (joinPath q).data := by rw [h]
  rw [joinPath, joinPath, joinWith_slash_data, joinWith_slash_data,
      List.map_map, List.map_map] at hd
  have hcond : ∀ r : List Nat, ∀ s ∈ r.map (String.data ∘ toString),
      s ≠ [] ∧ ∀ c ∈ s, c ≠ '/' := by
    intro r s hs
    obtain ⟨n, _, rfl⟩ := List.mem_map.mp hs
    exact ⟨natToString_ne_nil n,
      fun c hc => isDigit_ne_slash (natToString_digits n c hc)⟩
  have hseg := joinSegs_inj _ _ (hcond p) (hcond q) hd
  exact map_natToString_data_inj p q (by simpa using hseg)

/-! ## Small structural helpers -/

theorem getLast?_set_last {α : Type} (l : List α) (a : α) (h : l ≠ []) :
    (l.set (l.length - 1) a).getLast? = some a := by
  have hpos : 0 < l.length := List.length_pos.mpr h
  rw [List.getLast?_eq_getElem?]
  simp only [List.length_set]
  rw [List.getElem?_set_self (by omega)]

theorem attachAll_fst_length_le (pm : List (String × CallNode)) :
    ∀ (pairs : List (EventPath × ReceiptLog)) (li : Nat),
      (attachAll pm pairs li).1.length ≤ pairs.length := by
  intro pairs
  induction pairs with
  | nil => intro li; simp [attachAll]
  | cons pr rest ih =>
    intro li
    obtain ⟨e, lg⟩ := pr
    rw [attachAll]
    rcases h : pm.find? (fun kv => kv.1 == joinPath e.callPath) with _ | kn
    · simp only [h]
      simpa using Nat.le_succ_of_le (ih (li + 1))
    · simp only [h]
      simpa using ih (li + 1)

theorem joinWith_mem_infix (w : String) : ∀ ws : List String, w ∈ ws →
    ∃ pre post : List Char, (joinWith "\n" ws).data = pre ++ w.data ++ post := by
  intro ws
  induction ws with
  | nil => intro h; cases h
  | cons a rest ih =>
    intro h
    cases rest with
    | nil =>
      rcases List.mem_singleton.mp h with rfl
      exact ⟨[], [], by simp [joinWith]⟩
    | cons b rest' =>
      rcases List.mem_cons.mp h with rfl | h'
      · refine ⟨[], '\n'.toString.data ++ (joinWith "\n" (b :: rest')).data, ?_⟩
        simp only [joinWith, String.data_append, List.nil_append, List.append_assoc]
        rfl
      · obtain ⟨pre, post, hp⟩ := ih h'
        refine ⟨a.data ++ '\n'.toString.data ++ pre, post, ?_⟩
        simp only [joinWith, String.data_append, hp, List.append_assoc]
        rfl

/-! ## Claim theorems -/

/-- C5: for every stitched event/log pair whose path resolves to a node,
the expected log-emitter address is the node's source address (lowercased)
for DELEGATECALL/CALLCODE nodes and its destination address (lowercased)
otherwise; the receipt log's address is compared lowercased
(case-insensitively), a disagreement emits exactly one address-mismatch
warning, and the log is attached to the node's path key regardless of
whether the warning was emitted. -/
theorem claim_C5 :
    (∀ n : CallNode, (n.type = some "DELEGATECALL" ∨ n.type = some "CALLCODE") →
      expectedLogAddressForNode n = Option.map jsToLower n.fromAddr) ∧
    (∀ n : CallNode, n.type ≠ some "DELEGATECALL" → n.type ≠ some "CALLCODE" →
      expectedLogAddressForNode n = Option.map jsToLower n.toAddr) ∧
    (∀ (pm : List (String × CallNode)) (e : EventPath) (lg : ReceiptLog) (li : Nat)
        (rest : List (EventPath × ReceiptLog)) (kn : String × CallNode),
      pm.find? (fun kv => kv.1 == joinPath e.callPath) = some kn →
      (attachAll pm ((e, lg) :: rest) li).1 =
        (joinPath e.callPath, lg) :: (attachAll pm rest (li + 1)).1 ∧
      (attachAll pm ((e, lg) :: rest) li).2 =
        (match expectedLogAddressForNode kn.2 with
         | some ea =>
           if ea ≠ "" ∧ lg.address ≠ "" ∧ ea ≠ jsToLower lg.address
           then [addrMismatchMsg (joinPath e.callPath) ea (jsToLower lg.address) li] else []
         | none => []) ++ (attachAll pm rest (li + 1)).2) := by
  refine ⟨?_, ?_, ?_⟩
  · intro n h
    rw [expectedLogAddressForNode, if_pos h]
  · intro n h1 h2
    rw [expectedLogAddressForNode, if_neg (by rintro (h | h) <;> [exact h1 h; exact h2 h])]
  · intro pm e lg li rest kn h
    rw [attachAll]
    simp only [h]
    exact ⟨trivial, trivial⟩

/-- C5 witness: a DELEGATECALL node's expected address is its (lowercased)
source address, and a found pair is attached even though its address
mismatches. -/
theorem claim_C5_witness :
    expectedLogAddressForNode
        (CallNode.mk (some "DELEGATECALL") (some "0xAB") (some "0xCD")
          none none none none []) =
      Option.map jsToLower (CallNode.mk (some "DELEGATECALL") (some "0xAB")
          (some "0xCD") none none none none []).fromAddr ∧
    (attachAll [("", CallNode.mk (some "CALL") none (some "0xCD") none none none none [])]
        [({ op := "LOG0", pc := 0, depth := 1, callPath := [], eventIdxInCall := 0 },
          { address := "0xEF", topics := [], data := "" })] 0).1 =
      [("", { address := "0xEF", topics := [], data := "" })] := by
  constructor
  · exact claim_C5.1 _ (Or.inl rfl)
  · have h := (claim_C5.2.2
      [("", CallNode.mk (some "CALL") none (some "0xCD") none none none none [])]
      { op := "LOG0", pc := 0, depth := 1, callPath := [], eventIdxInCall := 0 }
      { address := "0xEF", topics := [], data := "" } 0 []
      ("", CallNode.mk (some "CALL") none (some "0xCD") none none none none [])
      (by rfl)).1
    rw [h]
    rfl

/-- C7: the count-mismatch warning is emitted, first, exactly when the
number E of derived events differs from the number L of receipt logs;
attachment walks the two lists in lock-step over exactly `min E L` pairs,
attaching at most `min E L` logs; and each residual receipt log beyond
`min E L` produces exactly one unmapped-leftover warning. -/
theorem claim_C7 (root : CallRoot) (steps : List StructLogStep)
    (receipt : List ReceiptLog) (events : List EventPath) (root' : CallRoot)
    (ws : List String)
    (h1 : deriveEventPathsRevertAware steps = some events)
    (h2 : stitchCore root steps receipt = some (root', ws)) :
    ws = (if events.length ≠ receipt.length
          then [countMismatchMsg events.length receipt.length] else [])
         ++ (attachAll (annotateCallPaths root) (events.zip receipt) 0).2
         ++ (List.range' (min events.length receipt.length)
              (receipt.length - min events.length receipt.length)).map leftoverMsg ∧
    (events.length ≠ receipt.length →
      ws.head? = some (countMismatchMsg events.length receipt.length)) ∧
    (events.length = receipt.length →
      ws = (attachAll (annotateCallPaths root) (events.zip receipt) 0).2) ∧
    (events.zip receipt).length = min events.length receipt.length ∧
    (attachAll (annotateCallPaths root) (events.zip receipt) 0).1.length ≤
      min events.length receipt.length ∧
    ∀ j : Nat, min events.length receipt.length ≤ j → j < receipt.length →
      leftoverMsg j ∈ ws := by
  rw [stitchCore, h1] at h2
  have hws : ws =
      (if events.length ≠ receipt.length
       then [countMismatchMsg events.length receipt.length] else [])
      ++ (attachAll (annotateCallPaths root) (events.zip receipt) 0).2
      ++ (List.range' (min events.length receipt.length)
           (receipt.length - min events.length receipt.length)).map leftoverMsg := by
    have := (Prod.mk.injEq _ _ _ _).mp (Option.some.inj h2)
    exact this.2.symm
  refine ⟨hws, ?_, ?_, ?_, ?_, ?_⟩
  · intro hne
    rw [hws, if_pos hne]
    rfl
  · intro heq
    rw [hws, if_neg (by omega), heq, Nat.min_self, Nat.sub_self]
    simp
  · exact List.length_zip _ _
  · calc (attachAll (annotateCallPaths root) (events.zip receipt) 0).1.length
        ≤ (events.zip receipt).length := attachAll_fst_length_le _ _ 0
      _ = min events.length receipt.length := List.length_zip _ _
  · intro j hj1 hj2
    rw [hws]
    refine List.mem_append_right _ ?_
    refine List.mem_map.mpr ⟨j, ?_, rfl⟩
    rw [List.mem_range'_1]
    constructor
    · exact hj1
    · have hmin : min events.length receipt.length ≤ receipt.length := Nat.min_le_right _ _
      omega

/-- C7 witness: with zero derived events and one receipt log, the warning
list is the count-mismatch warning followed by one leftover warning, and
the count-mismatch warning comes first. -/
theorem claim_C7_witness :
    ([countMismatchMsg 0 1, leftoverMsg 0] : List String).head? =
      some (countMismatchMsg 0 1) :=
  (claim_C7 (.single (.mk none none none none none none none [])) []
      [{ address := "0xa", topics := [], data := "" }] []
      (.single (.mk none none none none none (some []) (some []) []))
      [countMismatchMsg 0 1, leftoverMsg 0] rfl rfl).2.1 (by decide)

/-- C6: the stitch raises the aggregated-warnings error exactly when the
accumulated warning list is non-empty and the caller did not pass
`suppressWarnings`; the error message is the header followed by every
warning line joined by newlines (so it contains each warning as a
substring); in lenient mode, or with no warnings, the function returns the
stitched tree together with the full warning list. -/
theorem claim_C6 (root : CallRoot) (steps : List StructLogStep)
    (receipt : List ReceiptLog) (sup : Bool) (root' : CallRoot) (ws : List String)
    (h : stitchCore root steps receipt = some (root', ws)) :
    (stitchLogsIntoCallTrace root steps receipt sup =
        some (Except.error (warningsHeader ++ joinWith "\n" ws)) ↔
      ws ≠ [] ∧ sup = false) ∧
    (stitchLogsIntoCallTrace root steps receipt sup = some (Except.ok (root', ws)) ↔
      ws = [] ∨ sup = true) ∧
    (∀ w ∈ ws, ∃ pre post : List Char,
      (warningsHeader ++ joinWith "\n" ws).data = pre ++ w.data ++ post) := by
  have hs : stitchLogsIntoCallTrace root steps receipt sup =
      some (if 0 < ws.length ∧ sup = false
            then Except.error (warningsHeader ++ joinWith "\n" ws)
            else Except.ok (root', ws)) := by
    rw [stitchLogsIntoCallTrace, h]
  refine ⟨?_, ?_, ?_⟩
  · constructor
    · intro he
      by_cases hc : 0 < ws.length ∧ sup = false
      · exact ⟨by intro hnil; rw [hnil] at hc; simp at hc, hc.2⟩
      · rw [hs, if_neg hc] at he
        cases Option.some.inj he
    · intro ⟨hne, hsup⟩
      rw [hs, if_pos ⟨List.length_pos.mpr hne, hsup⟩]
  · constructor
    · intro he
      by_cases hc : 0 < ws.length ∧ sup = false
      · rw [hs, if_pos hc] at he
        cases Option.some.inj he
      · rcases Decidable.not_and_iff_or_not.mp hc with h' | h'
        · left
          have : ws.length = 0 := by omega
          exact List.length_eq_zero.mp this
        · right
          exact Bool.of_not_eq_false h'
    · intro hor
      rw [hs, if_neg ?_]
      rintro ⟨hlen, hsup⟩
      rcases hor with h' | h'
      · rw [h'] at hlen; simp at hlen
      · rw [h'] at hsup; cases hsup
  · intro w hw
    obtain ⟨pre, post, hp⟩ := joinWith_mem_infix w ws hw
    exact ⟨warningsHeader.data ++ pre, post, by
      rw [String.data_append, hp]
      simp [List.append_assoc]⟩

/-- C6 witness: with a non-empty warning list and `suppressWarnings` off,
the stitch returns the aggregated-warnings error. -/
theorem claim_C6_witness :
    stitchLogsIntoCallTrace (.single (.mk none none none none none none none [])) []
        [{ address := "0xa", topics := [], data := "" }] false =
      some (Except.error (warningsHeader ++
        joinWith "\n" [countMismatchMsg 0 1, leftoverMsg 0])) :=
  (claim_C6 (.single (.mk none none none none none none none [])) []
      [{ address := "0xa", topics := [], data := "" }] false
      (.single (.mk none none none none none (some []) (some []) []))
      [countMismatchMsg 0 1, leftoverMsg 0] rfl).1.mpr ⟨by simp, rfl⟩

theorem enrichKids_eq_map (sel : String → Option String)
    (tmap : String → Option (String × (ReceiptLog → String))) :
    ∀ cs : List CallNode, enrichKids sel tmap cs = cs.map (enrichCall sel tmap) := by
  intro cs
  induction cs with
  | nil => rfl
  | cons c cs' ih => rw [enrichKids, ih, List.map_cons]

theorem enrichCall_mk (sel : String → Option String)
    (tmap : String → Option (String × (ReceiptLog → String)))
    (t f toA inp m : Option String) (lgs : Option (List AttachedLog))
    (p : Option (List Nat)) (calls : List CallNode) :
    enrichCall sel tmap (.mk t f toA inp m lgs p calls) =
      .mk t f toA inp
        (match inp with
         | none => none
         | some s => if s ≠ "" then some (getMethodName sel s) else some (s.take 10))
        (match lgs with
         | none => none
         | some ls => some (ls.map (fun al =>
             { log := al.log, parsed := some (parseEvent tmap al.log) })))
        p (enrichKids sel tmap calls) := rfl

/-- C8 (amended): the enricher labels a call node's method from its input
payload as follows.  When the input is present, non-empty and at least 10
characters long, a selector found in the lookup table yields the mapped
name and an unresolved selector passes through as the raw selector string;
when the input is present, non-empty and shorter than 10 characters the
node is labelled with the sentinel `"unknown"`; when the input is the
empty string the label is the empty string; and when the input is missing
the node receives no label at all (`method` stays undefined).  Children
are enriched recursively. -/
theorem claim_C8 (sel : String → Option String)
    (tmap : String → Option (String × (ReceiptLog → String))) (c : CallNode) :
    (∀ s nm, c.input = some s → 10 ≤ s.length → sel (s.take 10) = some nm →
      (enrichCall sel tmap c).method = some nm) ∧
    (∀ s, c.input = some s → 10 ≤ s.length → sel (s.take 10) = none →
      (enrichCall sel tmap c).method = some (s.take 10)) ∧
    (∀ s, c.input = some s → s ≠ "" → s.length < 10 →
      (enrichCall sel tmap c).method = some "unknown") ∧
    (c.input = some "" → (enrichCall sel tmap c).method = some "") ∧
    (c.input = none → (enrichCall sel tmap c).method = none) ∧
    (enrichCall sel tmap c).calls = c.calls.map (enrichCall sel tmap) := by
  obtain ⟨t, f, toA, inp, m, lgs, p, calls⟩ := c
  rw [enrichCall_mk]
  simp only [CallNode.input, CallNode.method, CallNode.calls]
  refine ⟨?_, ?_, ?_, ?_, ?_, ?_⟩
  · intro s nm hinp hlen hsel
    subst hinp
    have hne : s ≠ "" := by
      intro hs
      rw [hs] at hlen
      simp [String.length] at hlen
    simp only []
    rw [if_pos hne, getMethodName, if_neg (by push_neg; exact ⟨hne, by omega⟩)]
    simp [hsel]
  · intro s hinp hlen hsel
    subst hinp
    have hne : s ≠ "" := by
      intro hs
      rw [hs] at hlen
      simp [String.length] at hlen
    simp only []
    rw [if_pos hne, getMethodName, if_neg (by push_neg; exact ⟨hne, by omega⟩)]
    simp [hsel]
  · intro s hinp hne hlen
    subst hinp
    simp only []
    rw [if_pos hne, getMethodName, if_pos (Or.inr hlen)]
  · intro hinp
    subst hinp
    simp only []
    rw [if_neg (by simp)]
    rfl
  · intro hinp
    subst hinp
    rfl
  · exact enrichKids_eq_map sel tmap calls

/-- C8 counterexample: a node with no input payload gets no method label
at all (`method` is left undefined), not the sentinel `"unknown"` the
claim requires. -/
theorem claim_C8_counterexample :
    (enrichCall (fun _ => none) (fun _ => none)
        (CallNode.mk none none none none none none none [])).method ≠
      some "unknown" := by
  decide

/-- C8 witness: a resolvable 10-character selector yields the mapped name,
and a short non-empty input yields the sentinel. -/
theorem claim_C8_witness :
    (enrichCall (fun s => if s = "0x12345678" then some "transfer" else none)
        (fun _ => none)
        (CallNode.mk none none none (some "0x12345678aa") none none none [])).method =
      some "transfer" ∧
    (enrichCall (fun _ => (none : Option String)) (fun _ => none)
        (CallNode.mk none none none (some "0xab") none none none [])).method =
      some "unknown" := by
  constructor
  · exact (claim_C8 _ _ _).1 "0x12345678aa" "transfer" rfl (by decide) (by decide)
  · exact (claim_C8 _ _ _).2.2.1 "0xab" rfl (by decide) (by decide)

theorem applyEnter_some (frames : List Frame) (f : Frame)
    (hl : frames.getLast? = some f) :
    applyEnter frames =
      some (frames.set (frames.length - 1) { f with nextChild := f.nextChild + 1 },
        frames.length - 1, f.nextChild) := by
  rw [applyEnter, hl]

/-- C2: a CALL/CREATE-family step reserves the parent's next child index
and increments the parent's child counter immediately; if the next step
does not go strictly deeper the reservation is discarded with the frame
stack unchanged (no frame, no path), while if it does go strictly deeper
a frame is pushed whose path is the parent's path extended by the reserved
index; and because the counter was already incremented, a second
reservation on the same parent receives the next index, not the discarded
one. -/
theorem claim_C2 :
    (∀ (frames : List Frame) (f : Frame), frames.getLast? = some f →
      applyEnter frames =
        some (frames.set (frames.length - 1) { f with nextChild := f.nextChild + 1 },
          frames.length - 1, f.nextChild)) ∧
    (∀ (st : DState) (s : StructLogStep) (p i : Nat), st.pending = some (p, i) →
      ¬(s.depth > st.prevDepth) → resolvePending st s = some st.frames) ∧
    (∀ (st : DState) (s : StructLogStep) (p i : Nat) (pf : Frame),
      st.pending = some (p, i) → s.depth > st.prevDepth → st.frames[p]? = some pf →
      resolvePending st s = some (st.frames ++
        [{ path := pf.path ++ [i], nextChild := 0, logsIdx := [], reverted := false }])) ∧
    (∀ (frames fr1 fr2 : List Frame) (r1 r2 : Nat × Nat),
      applyEnter frames = some (fr1, r1) → applyEnter fr1 = some (fr2, r2) →
      r2.1 = r1.1 ∧ r2.2 = r1.2 + 1) := by
  refine ⟨applyEnter_some, ?_, ?_, ?_⟩
  · intro st s p i hp hd
    simp only [resolvePending, hp, if_neg hd]
  · intro st s p i pf hp hd hg
    simp only [resolvePending, hp, if_pos hd, hg]
  · intro frames fr1 fr2 r1 r2 h1 h2
    rcases hl : frames.getLast? with _ | f
    · rw [applyEnter, hl] at h1; cases h1
    · rw [applyEnter_some frames f hl] at h1
      have hne : frames ≠ [] := by intro hn; rw [hn] at hl; simp at hl
      obtain ⟨hfr1, hr1⟩ := Prod.mk.injEq _ _ _ _ |>.mp (Option.some.inj h1)
      have hl1 : fr1.getLast? = some { f with nextChild := f.nextChild + 1 } := by
        rw [← hfr1]
        exact getLast?_set_last frames _ hne
      rw [applyEnter_some fr1 _ hl1] at h2
      obtain ⟨_, hr2⟩ := Prod.mk.injEq _ _ _ _ |>.mp (Option.some.inj h2)
      have hlen : fr1.length = frames.length := by rw [← hfr1, List.length_set]
      constructor
      · rw [← hr2, ← hr1]
        simp [hlen]
      · rw [← hr2, ← hr1]

/-- C2 witness: a reservation on a one-frame stack takes index 0 and bumps
the counter; with the next step not deeper the stack is unchanged; a
second reservation takes index 1. -/
theorem claim_C2_witness :
    applyEnter [{ path := [], nextChild := 0, logsIdx := [], reverted := false }] =
      some ([{ path := [], nextChild := 0, logsIdx := [], reverted := false }].set 0
          { path := [], nextChild := 1, logsIdx := [], reverted := false }, 0, 0) ∧
    resolvePending
        { frames := [{ path := [], nextChild := 1, logsIdx := [], reverted := false }],
          pending := some (0, 0), events := [], prevDepth := 1 }
        { op := "STOP", depth := 1, pc := 1 } =
      some [{ path := [], nextChild := 1, logsIdx := [], reverted := false }] ∧
    resolvePending
        { frames := [{ path := [], nextChild := 1, logsIdx := [], reverted := false }],
          pending := some (0, 0), events := [], prevDepth := 1 }
        { op := "LOG0", depth := 2, pc := 1 } =
      some ([{ path := [], nextChild := 1, logsIdx := [], reverted := false }] ++
        [{ path := [0], nextChild := 0, logsIdx := [], reverted := false }]) ∧
    (0 : Nat) = 0 ∧ (1 : Nat) = 0 + 1 := by
  refine ⟨?_, ?_, ?_, ?_⟩
  · exact claim_C2.1 [{ path := [], nextChild := 0, logsIdx := [], reverted := false }]
      { path := [], nextChild := 0, logsIdx := [], reverted := false } rfl
  · exact claim_C2.2.1
      { frames := [{ path := [], nextChild := 1, logsIdx := [], reverted := false }],
        pending := some (0, 0), events := [], prevDepth := 1 }
      { op := "STOP", depth := 1, pc := 1 } 0 0 rfl (by decide)
  · have h := claim_C2.2.2.1
      { frames := [{ path := [], nextChild := 1, logsIdx := [], reverted := false }],
        pending := some (0, 0), events := [], prevDepth := 1 }
      { op := "LOG0", depth := 2, pc := 1 } 0 0
      { path := [], nextChild := 1, logsIdx := [], reverted := false } rfl (by decide) rfl
    exact h
  · have h := claim_C2.2.2.2
      [{ path := [], nextChild := 0, logsIdx := [], reverted := false }]
      [{ path := [], nextChild := 1, logsIdx := [], reverted := false }]
      [{ path := [], nextChild := 2, logsIdx := [], reverted := false }]
      (0, 0) (0, 1) rfl rfl
    exact ⟨h.1, h.2⟩

/-- C1: a REVERT step only marks the top frame of the unwound stack as
reverted (leaving the event list and the rest of the stack unchanged);
popping one frame marks as dropped exactly the events whose indices are in
the popped frame's log-index list when that frame is reverted; marking is
pointwise exact (an event is marked if and only if its index is listed,
all other events are untouched); and the finalize pass emits exactly the
non-dropped provisional records, in order. -/
theorem claim_C1 :
    (∀ (st : DState) (s : StructLogStep) (st' : DState) (fr : List Frame)
        (evs : List ProvEvent) (top : Frame),
      s.op = "REVERT" → framesAfterUnwind st s = some (fr, evs) →
      fr.getLast? = some top → stepOne st s = some st' →
      st' = { frames := fr.set (fr.length - 1) { top with reverted := true },
              pending := none, events := evs, prevDepth := s.depth }) ∧
    (∀ (evs : List ProvEvent) (idxs : List Nat) (i : Nat),
      (markDropped evs idxs)[i]? =
        (evs[i]?).map (fun e => if i ∈ idxs then { e with dropped := true } else e)) ∧
    (∀ (frames : List Frame) (evs : List ProvEvent) (d : Int) (f : Frame),
      frames.getLast? = some f → f.reverted = true →
      ((frames.length : Int) - 1 > d - 1) →
      popLoop frames evs d = popLoop frames.dropLast (markDropped evs f.logsIdx) d) ∧
    (∀ (evs : List ProvEvent) (c : String → Nat),
      (finalizeEvents evs c).map stripE = (evs.filter (fun e => !e.dropped)).map stripP) := by
  refine ⟨?_, ?_, ?_, ?_⟩
  · intro st s st' fr evs top hop hfu hl h
    obtain ⟨op, d, pc⟩ := s
    simp only at hop
    subst hop
    have hE : ENTER.contains "REVERT" = false := by decide
    have hL : strStartsWith "REVERT" "LOG" = false := by decide
    rw [stepOne] at h
    simp only [hfu, hE, hL, Option.some_bind, Bool.false_eq_true, if_false, if_pos rfl,
      applyRevert, hl] at h
    exact (Option.some.inj h).symm
  · intro evs idxs i
    exact markDropped_getElem? idxs evs i
  · intro frames evs d f hl hrev hgt
    rw [popLoop_pop frames evs d f hgt hl, if_pos hrev]
  · intro evs c
    exact finalizeEvents_strip evs c

/-- C1 witness: a REVERT at depth 1 marks the root frame reverted, and
popping a reverted frame with log index 0 marks event 0 dropped. -/
theorem claim_C1_witness :
    ({ frames := [{ path := [], nextChild := 0, logsIdx := [], reverted := true }],
       pending := none, events := [], prevDepth := 1 } : DState) =
      { frames := ([{ path := [], nextChild := 0, logsIdx := [], reverted := false }] :
            List Frame).set
          (([{ path := [], nextChild := 0, logsIdx := [], reverted := false }] :
            List Frame).length - 1)
          { path := [], nextChild := 0, logsIdx := [], reverted := true },
        pending := none, events := [],
        prevDepth := ({ op := "REVERT", depth := 1, pc := 9 } : StructLogStep).depth } ∧
    popLoop
        [{ path := [], nextChild := 0, logsIdx := [], reverted := false },
         { path := [0], nextChild := 0, logsIdx := [0], reverted := true }]
        [{ op := "LOG0", pc := 3, depth := 2, callPath := [0], dropped := false }] 1 =
      popLoop
        ([{ path := [], nextChild := 0, logsIdx := [], reverted := false },
          { path := [0], nextChild := 0, logsIdx := [0], reverted := true }] :
          List Frame).dropLast
        (markDropped
          [{ op := "LOG0", pc := 3, depth := 2, callPath := [0], dropped := false }]
          [0]) 1 := by
  constructor
  · exact claim_C1.1
      { frames := [{ path := [], nextChild := 0, logsIdx := [], reverted := false }],
        pending := none, events := [], prevDepth := 1 }
      { op := "REVERT", depth := 1, pc := 9 }
      { frames := [{ path := [], nextChild := 0, logsIdx := [], reverted := true }],
        pending := none, events := [], prevDepth := 1 }
      [{ path := [], nextChild := 0, logsIdx := [], reverted := false }] []
      { path := [], nextChild := 0, logsIdx := [], reverted := false }
      rfl rfl rfl rfl
  · exact claim_C1.2.2.1
      [{ path := [], nextChild := 0, logsIdx := [], reverted := false },
       { path := [0], nextChild := 0, logsIdx := [0], reverted := true }]
      [{ op := "LOG0", pc := 3, depth := 2, callPath := [0], dropped := false }] 1
      { path := [0], nextChild := 0, logsIdx := [0], reverted := true }
      rfl rfl (by decide)

/-! ## Safety of the step loop (claim C10) -/

theorem exists_getLast? {α : Type} (l : List α) (h : 1 ≤ l.length) :
    ∃ f, l.getLast? = some f := by
  cases hl : l.getLast? with
  | none =>
    rw [List.getLast?_eq_none_iff] at hl
    rw [hl] at h
    simp at h
  | some f => exact ⟨f, rfl⟩

theorem popLoopF_safe (fuel : Nat) : ∀ (frames : List Frame) (evs : List ProvEvent)
    (d : Int), 1 ≤ d → 1 ≤ frames.length → frames.length ≤ fuel →
    ∃ fr evs', popLoopF fuel frames evs d = some (fr, evs') ∧ 1 ≤ fr.length := by
  induction fuel with
  | zero => intro frames evs d _ h1 h2; omega
  | succ fuel ih =>
    intro frames evs d hd h1 h2
    rw [popLoopF]
    by_cases hc : (frames.length : Int) - 1 > d - 1
    · obtain ⟨f, hf⟩ := exists_getLast? frames h1
      rw [if_pos hc, hf]
      have hge2 : 2 ≤ frames.length := by omega
      have hdl : frames.dropLast.length = frames.length - 1 := List.length_dropLast frames
      exact ih frames.dropLast _ d hd (by omega) (by omega)
    · rw [if_neg hc]
      exact ⟨frames, evs, rfl, h1⟩

theorem popLoop_safe (frames : List Frame) (evs : List ProvEvent) (d : Int)
    (hd : 1 ≤ d) (h1 : 1 ≤ frames.length) :
    ∃ fr evs', popLoop frames evs d = some (fr, evs') ∧ 1 ≤ fr.length :=
  popLoopF_safe frames.length frames evs d hd h1 (Nat.le_refl _)

theorem stepOne_safe (st : DState) (s : StructLogStep)
    (hd : (1 : Int) ≤ s.depth)
    (hlen : 1 ≤ st.frames.length)
    (hpend : ∀ p i, st.pending = some (p, i) → p < st.frames.length) :
    ∃ st', stepOne st s = some st' ∧ 1 ≤ st'.frames.length ∧
      ∀ p i, st'.pending = some (p, i) → p < st'.frames.length := by
  obtain ⟨fr, hfr, hfrlen⟩ : ∃ fr, resolvePending st s = some fr ∧ 1 ≤ fr.length := by
    rcases hp : st.pending with _ | ⟨p, i⟩
    · exact ⟨st.frames, by rw [resolvePending, hp], hlen⟩
    · by_cases hdp : s.depth > st.prevDepth
      · have hplt := hpend p i hp
        have hpf : st.frames[p]? = some st.frames[p] := List.getElem?_eq_getElem hplt
        refine ⟨st.frames ++
            [{ path := st.frames[p].path ++ [i], nextChild := 0, logsIdx := [], reverted := false }],
          ?_, ?_⟩
        · simp only [resolvePending, hp, if_pos hdp, hpf]
        · simp
      · exact ⟨st.frames, by simp only [resolvePending, hp, if_neg hdp], hlen⟩
  obtain ⟨fr0, evs0, hpop, hlen0⟩ := popLoop_safe fr st.events s.depth hd hfrlen
  have hfu : framesAfterUnwind st s = some (fr0, evs0) := by
    simp only [framesAfterUnwind, hfr]
    exact hpop
  -- ENTER stage
  obtain ⟨fr1, pending1, h1, hlen1, hp1⟩ :
      ∃ fr1 pending1,
        (if ENTER.contains s.op then (applyEnter fr0).map (fun r => (r.1, some r.2))
         else some (fr0, (none : Option (Nat × Nat)))) = some (fr1, pending1) ∧
        fr1.length = fr0.length ∧
        (∀ p i, pending1 = some (p, i) → p < fr1.length) := by
    by_cases he : ENTER.contains s.op
    · obtain ⟨f, hf⟩ := exists_getLast? fr0 hlen0
      refine ⟨_, _, by rw [if_pos he, applyEnter_some fr0 f hf, Option.map], ?_, ?_⟩
      · simp
      · intro p i hpi
        cases Option.some.inj hpi
        simp only [List.length_set]
        omega
    · exact ⟨fr0, none, by rw [if_neg he], rfl, by intro p i h; cases h⟩
  -- LOG stage
  obtain ⟨fr2, evs2, h2, hlen2⟩ :
      ∃ fr2 evs2,
        (if strStartsWith s.op "LOG" then applyLog fr1 evs0 s else some (fr1, evs0)) =
          some (fr2, evs2) ∧ fr2.length = fr1.length := by
    by_cases hlog : strStartsWith s.op "LOG"
    · obtain ⟨f, hf⟩ := exists_getLast? fr1 (by omega)
      refine ⟨_, _, by rw [if_pos hlog, applyLog, hf], ?_⟩
      simp
    · exact ⟨fr1, evs0, by rw [if_neg hlog], rfl⟩
  -- REVERT stage
  obtain ⟨fr3, h3, hlen3⟩ :
      ∃ fr3, (if s.op = "REVERT" then applyRevert fr2 else some fr2) = some fr3 ∧
        fr3.length = fr2.length := by
    by_cases hrev : s.op = "REVERT"
    · obtain ⟨f, hf⟩ := exists_getLast? fr2 (by omega)
      refine ⟨_, by rw [if_pos hrev, applyRevert, hf], ?_⟩
      simp
    · exact ⟨fr2, by rw [if_neg hrev], rfl⟩
  refine ⟨{ frames := fr3, pending := pending1, events := evs2, prevDepth := s.depth },
    ?_, by simp; omega, ?_⟩
  · simp only [stepOne, hfu, h1, h2, h3]
  · intro p i hpi
    simp only at hpi ⊢
    have := hp1 p i hpi
    omega

theorem runD_cons (init : DState) (s : StructLogStep) (rest : List StructLogStep) :
    runD init (s :: rest) = (stepOne init s).bind (fun st' => runD st' rest) := by
  rcases h : stepOne init s with _ | st' <;>
    simp [runD, List.foldlM, h]

theorem runD_safe (steps : List StructLogStep) : ∀ init : DState,
    (∀ s ∈ steps, (1 : Int) ≤ s.depth) →
    1 ≤ init.frames.length →
    (∀ p i, init.pending = some (p, i) → p < init.frames.length) →
    ∃ st, runD init steps = some st ∧ 1 ≤ st.frames.length ∧
      ∀ p i, st.pending = some (p, i) → p < st.frames.length := by
  induction steps with
  | nil => intro init _ h1 h2; exact ⟨init, rfl, h1, h2⟩
  | cons s rest ih =>
    intro init hd h1 h2
    obtain ⟨st1, hs1, hl1, hp1⟩ := stepOne_safe init s (hd s (by simp)) h1 h2
    obtain ⟨st2, hs2, hl2, hp2⟩ := ih st1 (fun s' hs' => hd s' (by simp [hs'])) hl1 hp1
    exact ⟨st2, by rw [runD_cons, hs1, Option.some_bind, hs2], hl2, hp2⟩

/-- C10: when every step's declared depth is at least 1, the virtual root
frame is never popped (the frame stack stays non-empty after every prefix
of the run) and `deriveEventPathsRevertAware` totally computes a result:
every top-of-stack access on LOG and REVERT steps and every parent-frame
lookup when resolving a pending reservation is in bounds, so no step of
the loop fails. -/
theorem claim_C10 (steps : List StructLogStep)
    (hd : ∀ s ∈ steps, (1 : Int) ≤ s.depth) :
    (∀ n : Nat, ∃ st, runD (initState steps) (steps.take n) = some st ∧
      1 ≤ st.frames.length) ∧
    (deriveEventPathsRevertAware steps).isSome = true := by
  have hinit1 : 1 ≤ (initState steps).frames.length := by simp [initState]
  have hinitp : ∀ p i, (initState steps).pending = some (p, i) →
      p < (initState steps).frames.length := by
    intro p i h
    simp [initState] at h
  constructor
  · intro n
    obtain ⟨st, h, hl, _⟩ := runD_safe (steps.take n) (initState steps)
      (fun s hs => hd s (List.mem_of_mem_take hs)) hinit1 hinitp
    exact ⟨st, h, hl⟩
  · obtain ⟨st, h, _, _⟩ := runD_safe steps (initState steps) hd hinit1 hinitp
    rw [deriveEventPathsRevertAware, h]
    rfl

/-- C10 witness: a two-step trace at depths 1 and 2 runs to completion. -/
theorem claim_C10_witness :
    (deriveEventPathsRevertAware
      [{ op := "CALL", depth := 1, pc := 0 },
       { op := "LOG0", depth := 2, pc := 1 }]).isSome = true :=
  (claim_C10 [{ op := "CALL", depth := 1, pc := 0 },
    { op := "LOG0", depth := 2, pc := 1 }] (by decide)).2

theorem beq_callPath_eq_beq_joinPath (p a : List Nat) :
    (a == p) = (joinPath a == joinPath p) := by
  by_cases h : a = p
  · subst h
    simp
  · have hj : joinPath a ≠ joinPath p := fun hj => h (joinPath_inj hj)
    simp [h, hj]

/-- C4: the finalized list returned by `deriveEventPathsRevertAware` is
exactly the retained (non-dropped) provisional records in their original
emission order (the stripped projections coincide, so the output is not
grouped by path), and for every path the `eventIdxInCall` ordinals of the
records sharing that path form `0, 1, 2, ...` in output order — zero-based,
unique within the path, and increasing in original order. -/
theorem claim_C4 (steps : List StructLogStep) (st : DState)
    (h : runD (initState steps) steps = some st) :
    deriveEventPathsRevertAware steps =
      some (finalizeEvents st.events (fun _ => 0)) ∧
    (finalizeEvents st.events (fun _ => 0)).map stripE =
      (st.events.filter (fun e => !e.dropped)).map stripP ∧
    ∀ p : List Nat,
      ((finalizeEvents st.events (fun _ => 0)).filter
          (fun r => r.callPath == p)).map (fun r => r.eventIdxInCall) =
        List.range (((finalizeEvents st.events (fun _ => 0)).filter
          (fun r => r.callPath == p)).length) := by
  refine ⟨?_, finalizeEvents_strip st.events _, ?_⟩
  · rw [deriveEventPathsRevertAware, h]
    rfl
  · intro p
    have hfc : (finalizeEvents st.events (fun _ => 0)).filter
        (fun r => r.callPath == p) =
        (finalizeEvents st.events (fun _ => 0)).filter
        (fun r => joinPath r.callPath == joinPath p) :=
      List.filter_congr (fun a _ => beq_callPath_eq_beq_joinPath p a.callPath)
    rw [hfc, finalizeEvents_key st.events (fun _ => 0) (joinPath p)]
    have hlen := congrArg List.length
      (finalizeEvents_key st.events (fun _ => 0) (joinPath p))
    simp only [List.length_map, List.length_range'] at hlen
    rw [hlen, List.range_eq_range']

/-- C4 witness: the ordinals of the root-path records of a one-LOG trace
form `List.range` of their count. -/
theorem claim_C4_witness :
    ((finalizeEvents
        [{ op := "LOG0", pc := 5, depth := 1, callPath := [], dropped := false }]
        (fun _ => 0)).filter
        (fun r => r.callPath == ([] : List Nat))).map (fun r => r.eventIdxInCall) =
      List.range (((finalizeEvents
        [{ op := "LOG0", pc := 5, depth := 1, callPath := [], dropped := false }]
        (fun _ => 0)).filter
        (fun r => r.callPath == ([] : List Nat))).length) :=
  (claim_C4 [{ op := "LOG0", depth := 1, pc := 5 }]
    { frames := [{ path := [], nextChild := 0, logsIdx := [0], reverted := false }],
      pending := none,
      events := [{ op := "LOG0", pc := 5, depth := 1, callPath := [], dropped := false }],
      prevDepth := 1 }
    (by decide)).2.2 []

/-! ## Revert-free runs (claim C3) -/

theorem mem_of_getLast? {α : Type} {l : List α} {a : α} (h : l.getLast? = some a) :
    a ∈ l := by
  rw [List.getLast?_eq_getElem?] at h
  obtain ⟨hlt, he⟩ := List.getElem?_eq_some_iff.mp h
  exact he ▸ List.getElem_mem hlt

theorem resolvePending_nr (st : DState) (s : StructLogStep) (fr : List Frame)
    (h : resolvePending st s = some fr)
    (hnr : ∀ f ∈ st.frames, f.reverted = false) :
    ∀ f ∈ fr, f.reverted = false := by
  rcases hp : st.pending with _ | ⟨p, i⟩
  · rw [resolvePending, hp] at h
    cases Option.some.inj h
    exact hnr
  · by_cases hdp : s.depth > st.prevDepth
    · rcases hg : st.frames[p]? with _ | pf
      · simp only [resolvePending, hp, if_pos hdp, hg] at h
        exact Option.noConfusion h
      · simp only [resolvePending, hp, if_pos hdp, hg] at h
        cases h
        intro f hf
        rcases List.mem_append.mp hf with hf' | hf'
        · exact hnr f hf'
        · rcases List.mem_singleton.mp hf' with rfl
          rfl
    · simp only [resolvePending, hp, if_neg hdp] at h
      cases h
      exact hnr

theorem popLoopF_nr (fuel : Nat) : ∀ (frames : List Frame) (evs : List ProvEvent)
    (d : Int) (fr : List Frame) (evs' : List ProvEvent),
    (∀ f ∈ frames, f.reverted = false) →
    popLoopF fuel frames evs d = some (fr, evs') →
    evs' = evs ∧ ∀ f ∈ fr, f.reverted = false := by
  induction fuel with
  | zero =>
    intro frames evs d fr evs' hnr h
    rw [popLoopF] at h
    by_cases hc : (frames.length : Int) - 1 > d - 1
    · rw [if_pos hc] at h
      rcases hl : frames.getLast? with _ | f <;> simp only [hl] at h <;>
        exact Option.noConfusion h
    · rw [if_neg hc] at h
      obtain ⟨h1, h2⟩ := Prod.mk.injEq _ _ _ _ |>.mp (Option.some.inj h)
      subst h1; subst h2
      exact ⟨rfl, hnr⟩
  | succ fuel ih =>
    intro frames evs d fr evs' hnr h
    rw [popLoopF] at h
    by_cases hc : (frames.length : Int) - 1 > d - 1
    · rw [if_pos hc] at h
      rcases hl : frames.getLast? with _ | f <;> simp only [hl] at h
      · exact Option.noConfusion h
      · have hfr := hnr f (mem_of_getLast? hl)
        rw [hfr] at h
        simp only [Bool.false_eq_true, if_false] at h
        exact ih frames.dropLast evs d fr evs'
          (fun g hg => hnr g (List.dropLast_subset frames hg)) h
    · rw [if_neg hc] at h
      obtain ⟨h1, h2⟩ := Prod.mk.injEq _ _ _ _ |>.mp (Option.some.inj h)
      subst h1; subst h2
      exact ⟨rfl, hnr⟩

theorem framesAfterUnwind_nr (st : DState) (s : StructLogStep)
    (fr0 : List Frame) (evs0 : List ProvEvent)
    (h : framesAfterUnwind st s = some (fr0, evs0))
    (hnr : ∀ f ∈ st.frames, f.reverted = false) :
    evs0 = st.events ∧ ∀ f ∈ fr0, f.reverted = false := by
  rw [framesAfterUnwind] at h
  rcases hr : resolvePending st s with _ | fr <;> rw [hr] at h
  · cases h
  · exact popLoopF_nr fr.length fr st.events s.depth fr0 evs0
      (resolvePending_nr st s fr hr hnr) h

theorem enter_not_log (op : String) (h : ENTER.contains op = true) :
    strStartsWith op "LOG" = false := by
  have hm : op ∈ ENTER := by
    have := List.contains_iff_exists_mem_beq.mp h
    obtain ⟨a, ha, hbeq⟩ := this
    rwa [show op = a from eq_of_beq hbeq]
  fin_cases hm <;> decide

theorem set_preserves_nr (frames : List Frame) (k : Nat) (g : Frame)
    (hnr : ∀ f ∈ frames, f.reverted = false) (hg : g.reverted = false) :
    ∀ f ∈ frames.set k g, f.reverted = false := by
  intro f hf
  rcases List.mem_or_eq_of_mem_set hf with hf' | rfl
  · exact hnr f hf'
  · exact hg

theorem stepOne_nr (st : DState) (s : StructLogStep) (st' : DState)
    (hnrf : ∀ f ∈ st.frames, f.reverted = false)
    (hop : s.op ≠ "REVERT")
    (h : stepOne st s = some st') :
    (∀ f ∈ st'.frames, f.reverted = false) ∧
    ∃ fr0, framesAfterUnwind st s = some (fr0, st.events) ∧
      (if strStartsWith s.op "LOG" = true then
        ∃ top, fr0.getLast? = some top ∧
          st'.events = st.events ++
            [{ op := s.op, pc := s.pc, depth := s.depth, callPath := top.path,
               dropped := false }]
       else st'.events = st.events) := by
  rcases hfu : framesAfterUnwind st s with _ | ⟨fr0, evs0⟩
  · rw [stepOne, hfu] at h
    exact Option.noConfusion h
  · obtain ⟨hevs0, hnr0⟩ := framesAfterUnwind_nr st s fr0 evs0 hfu hnrf
    subst hevs0
    rw [stepOne] at h
    simp only [hfu] at h
    by_cases hE : ENTER.contains s.op
    · have hlog : strStartsWith s.op "LOG" = false := enter_not_log s.op hE
      rcases hl : fr0.getLast? with _ | f
      · simp only [hE, if_true, applyEnter, hl, Option.map] at h
        exact Option.noConfusion h
      · simp only [hE, if_true, applyEnter_some fr0 f hl, Option.map, hlog,
          Bool.false_eq_true, if_false, if_neg hop] at h
        obtain rfl := (Option.some.inj h).symm
        refine ⟨?_, fr0, rfl, ?_⟩
        · exact set_preserves_nr fr0 _ _ hnr0 (hnr0 f (mem_of_getLast? hl))
        · simp [hlog]
    · by_cases hlog : strStartsWith s.op "LOG"
      · rcases hl : fr0.getLast? with _ | top
        · simp only [hE, Bool.false_eq_true, if_false, hlog, if_true, applyLog, hl] at h
          exact Option.noConfusion h
        · simp only [hE, Bool.false_eq_true, if_false, hlog, if_true, applyLog, hl,
            if_neg hop] at h
          obtain rfl := (Option.some.inj h).symm
          refine ⟨?_, fr0, rfl, ?_⟩
          · exact set_preserves_nr fr0 _ _ hnr0 (hnr0 top (mem_of_getLast? hl))
          · rw [if_pos hlog]
            exact ⟨top, hl, rfl⟩
      · simp only [hE, Bool.false_eq_true, if_false, hlog, if_neg hop] at h
        obtain rfl := (Option.some.inj h).symm
        refine ⟨hnr0, fr0, rfl, ?_⟩
        rw [if_neg hlog]

theorem countLOG_append_one (xs : List StructLogStep) (s : StructLogStep) :
    countLOG (xs ++ [s]) =
      countLOG xs + (if strStartsWith s.op "LOG" = true then 1 else 0) := by
  rw [countLOG, countLOG, List.filter_append]
  by_cases h : strStartsWith s.op "LOG" <;> simp [h]

theorem countLOG_take_mono (steps : List StructLogStep) {i j : Nat} (h : i ≤ j) :
    countLOG (steps.take i) ≤ countLOG (steps.take j) := by
  rw [countLOG, countLOG]
  have heq : steps.take i = (steps.take j).take i := by
    rw [List.take_take, Nat.min_eq_left h]
  rw [heq]
  exact ((List.take_sublist i (steps.take j)).filter _).length_le

theorem countLOG_take_succ (steps : List StructLogStep) (n : Nat) (s : StructLogStep)
    (hs : steps[n]? = some s) :
    countLOG (steps.take (n + 1)) =
      countLOG (steps.take n) + (if strStartsWith s.op "LOG" = true then 1 else 0) := by
  rw [List.take_succ, hs, Option.toList_some, countLOG_append_one]

theorem runD_nr_main (steps : List StructLogStep)
    (hnr : ∀ s ∈ steps, s.op ≠ "REVERT") :
    ∀ n : Nat, ∀ stn : DState, runD (initState steps) (steps.take n) = some stn →
      (∀ f ∈ stn.frames, f.reverted = false) ∧
      (∀ e ∈ stn.events, e.dropped = false) ∧
      stn.events.length = countLOG (steps.take n) ∧
      (∀ m s', m < n → steps[m]? = some s' → strStartsWith s'.op "LOG" = true →
        ∃ stm fr top,
          runD (initState steps) (steps.take m) = some stm ∧
          framesAfterUnwind stm s' = some (fr, stm.events) ∧
          fr.getLast? = some top ∧
          stn.events[countLOG (steps.take m)]? =
            some { op := s'.op, pc := s'.pc, depth := s'.depth,
                   callPath := top.path, dropped := false }) := by
  intro n
  induction n with
  | zero =>
    intro stn h
    rw [List.take_zero, runD_nil] at h
    obtain rfl := (Option.some.inj h).symm
    refine ⟨?_, ?_, rfl, ?_⟩
    · intro f hf
      simp only [initState] at hf
      rcases List.mem_singleton.mp hf with rfl
      rfl
    · intro e he
      simp only [initState] at he
      cases he
    · intro m s' hm
      omega
  | succ n ih =>
    intro stn h
    rcases hs : steps[n]? with _ | s
    · have hTake : steps.take (n + 1) = steps.take n := by
        rw [List.take_succ, hs]
        simp
      rw [hTake] at h
      obtain ⟨ihf, ihe, ihlen, ihhist⟩ := ih stn h
      refine ⟨ihf, ihe, by rw [hTake]; exact ihlen, ?_⟩
      intro m s' hm hm' hlog'
      have hmlt : m < steps.length := by
        rcases List.getElem?_eq_some_iff.mp hm' with ⟨h', _⟩
        exact h'
      have hlenle : steps.length ≤ n := by
        by_contra hlt
        push_neg at hlt
        rw [List.getElem?_eq_getElem hlt] at hs
        cases hs
      exact ihhist m s' (by omega) hm' hlog'
    · have hTake : steps.take (n + 1) = steps.take n ++ [s] := by
        rw [List.take_succ, hs]
        rfl
      rw [hTake, runD_append] at h
      rcases hp : runD (initState steps) (steps.take n) with _ | stp
      · rw [hp] at h
        cases h
      · rw [hp, Option.some_bind, runD_one] at h
        obtain ⟨ihf, ihe, ihlen, ihhist⟩ := ih stp hp
        have hsmem : s ∈ steps := by
          rcases List.getElem?_eq_some_iff.mp hs with ⟨h', he⟩
          exact he ▸ List.getElem_mem h'
        have hop : s.op ≠ "REVERT" := hnr s hsmem
        obtain ⟨hnf', fr0, hfu, hcase⟩ := stepOne_nr stp s stn ihf hop h
        obtain ⟨tail, htail, htnd, hcnt⟩ :
            ∃ tail, stn.events = stp.events ++ tail ∧
              (∀ e ∈ tail, e.dropped = false) ∧
              tail.length = (if strStartsWith s.op "LOG" = true then 1 else 0) := by
          by_cases hlog : strStartsWith s.op "LOG" = true
          · rw [if_pos hlog] at hcase
            obtain ⟨top, hl, he⟩ := hcase
            refine ⟨_, he, ?_, by simp [hlog]⟩
            intro e he'
            rcases List.mem_singleton.mp he' with rfl
            rfl
          · rw [if_neg hlog] at hcase
            refine ⟨[], ?_, ?_, ?_⟩
            · rw [List.append_nil]
              exact hcase
            · intro e he'
              cases he'
            · rw [if_neg hlog]
              rfl
        refine ⟨hnf', ?_, ?_, ?_⟩
        · intro e he'
          rw [htail] at he'
          rcases List.mem_append.mp he' with h' | h'
          · exact ihe e h'
          · exact htnd e h'
        · rw [htail, List.length_append, ihlen, hcnt, countLOG_take_succ steps n s hs]
        · intro m s' hm hm' hlog'
          by_cases hmn : m = n
          · subst hmn
            obtain rfl : s' = s := Option.some.inj (hm'.symm.trans hs)
            rw [if_pos hlog'] at hcase
            obtain ⟨top, hl, he⟩ := hcase
            refine ⟨stp, fr0, top, hp, hfu, hl, ?_⟩
            rw [he, ← ihlen]
            exact List.getElem?_concat_length stp.events _
          · have hmlt : m < n := by omega
            obtain ⟨stm, fr, top, h1, h2, h3, h4⟩ := ihhist m s' hmlt hm' hlog'
            refine ⟨stm, fr, top, h1, h2, h3, ?_⟩
            rw [htail]
            have hidx : countLOG (steps.take m) < stp.events.length := by
              rw [ihlen]
              have h5 : countLOG (steps.take (m + 1)) =
                  countLOG (steps.take m) + 1 := by
                rw [countLOG_take_succ steps m s' hm', if_pos hlog']
              have h6 := countLOG_take_mono steps (show m + 1 ≤ n by omega)
              omega
            rw [List.getElem?_append_left hidx]
            exact h4

/-- C3: for every step sequence with no REVERT opcode on which the run
succeeds, `deriveEventPathsRevertAware` returns exactly one finalized
record per LOG-family step, and the record finalized for the n-th step
(at output position `countLOG (steps.take n)`, its position among the LOG
steps) carries the path of the deepest (top-of-stack) call frame active
when that step was processed, i.e. the top of the frame stack after the
pending reservation was resolved and frames were popped to the step's
depth. -/
theorem claim_C3 (steps : List StructLogStep) (out : List EventPath)
    (hnr : ∀ s ∈ steps, s.op ≠ "REVERT")
    (h : deriveEventPathsRevertAware steps = some out) :
    out.length = countLOG steps ∧
    ∀ n s, steps[n]? = some s → strStartsWith s.op "LOG" = true →
      ∃ stn fr top ev,
        runD (initState steps) (steps.take n) = some stn ∧
        framesAfterUnwind stn s = some (fr, stn.events) ∧
        fr.getLast? = some top ∧
        out[countLOG (steps.take n)]? = some ev ∧
        ev.callPath = top.path := by
  rcases hr : runD (initState steps) steps with _ | stF
  · rw [deriveEventPathsRevertAware, hr] at h
    cases h
  · rw [deriveEventPathsRevertAware, hr] at h
    have hout : out = finalizeEvents stF.events (fun _ => 0) := (Option.some.inj h).symm
    obtain ⟨hf, he, hlen, hhist⟩ := runD_nr_main steps hnr steps.length stF
      (by rwa [List.take_length])
    have hfilter : stF.events.filter (fun e => !e.dropped) = stF.events :=
      List.filter_eq_self.mpr (fun e hee => by simp [he e hee])
    have hstrip := finalizeEvents_strip stF.events (fun _ => 0)
    rw [hfilter] at hstrip
    constructor
    · have hlm := congrArg List.length hstrip
      simp only [List.length_map] at hlm
      rw [hout, hlm, hlen, List.take_length]
    · intro n s hs hlog
      have hnlt : n < steps.length := by
        rcases List.getElem?_eq_some_iff.mp hs with ⟨h', _⟩
        exact h'
      obtain ⟨stn, fr, top, h1, h2, h3, h4⟩ := hhist n s hnlt hs hlog
      refine ⟨stn, fr, top, ?ev⟩
      have hmap := congrArg (fun l => l[countLOG (steps.take n)]?) hstrip
      simp only [List.getElem?_map] at hmap
      rw [h4] at hmap
      rcases hoe : (finalizeEvents stF.events (fun _ => 0))[countLOG (steps.take n)]?
        with _ | ev
      · rw [hoe] at hmap
        cases hmap
      · rw [hoe] at hmap
        simp only [Option.map_some'] at hmap
        have hev := Option.some.inj hmap
        refine ⟨ev, h1, h2, h3, by rw [hout]; exact hoe, ?_⟩
        have : ev.callPath = top.path := by
          have := congrArg (fun q => q.2.2.2) hev
          simpa [stripE, stripP] using this
        exact this

/-- C3 witness: a revert-free CALL/LOG0/STOP trace finalizes exactly one
record, the count of its LOG steps. -/
theorem claim_C3_witness :
    ([{ op := "LOG0", pc := 1, depth := 2, callPath := [0], eventIdxInCall := 0 }] :
        List EventPath).length =
      countLOG [{ op := "CALL", depth := 1, pc := 0 },
        { op := "LOG0", depth := 2, pc := 1 },
        { op := "STOP", depth := 1, pc := 2 }] :=
  (claim_C3
    [{ op := "CALL", depth := 1, pc := 0 },
     { op := "LOG0", depth := 2, pc := 1 },
     { op := "STOP", depth := 1, pc := 2 }]
    [{ op := "LOG0", pc := 1, depth := 2, callPath := [0], eventIdxInCall := 0 }]
    (by decide) (by decide)).1
